import Mathlib

/-!
Verification development for the MindSpace mood-scoring pipeline.

The definitions below are a shallow embedding of the repository's scoring
logic: the text sentiment heuristic (`src/utils/voiceAnalysis.ts` and its
duplicate in `src/backend/server.js`), the voice-feature scorer, the
trend/intervention evaluator, and the journal/mood HTTP handlers' data
transformations.  JavaScript numbers are modelled as rationals, strings as
lists of characters, and the global negation regex
`(not|no|never|don't|doesn't|didn't|won't|wouldn't|can't|couldn't)\s+(\w+)`
as an explicit leftmost scanner.
-/

/-- JavaScript whitespace test `\s` (restricted to the ASCII whitespace
characters: space, tab, newline, carriage return, vertical tab, form feed). -/
def isWs (c : Char) : Bool :=
  (c == ' ') || (c == Char.ofNat 9) || (c == Char.ofNat 10) ||
  (c == Char.ofNat 13) || (c == Char.ofNat 11) || (c == Char.ofNat 12)

/-- JavaScript word-character test `\w` : letters, digits and underscore. -/
def isWordChar (c : Char) : Bool :=
  (('a' ≤ c) && (c ≤ 'z')) || (('A' ≤ c) && (c ≤ 'Z')) ||
  (('0' ≤ c) && (c ≤ '9')) || (c == '_')

/-- The apostrophe character, used inside the contracted negation markers. -/
def apos : Char := Char.ofNat 39

/-- ASCII lower-casing, the relevant fragment of `String.toLowerCase`. -/
def toLowerChar (c : Char) : Char :=
  if 'A' ≤ c ∧ c ≤ 'Z' then Char.ofNat (c.toNat + 32) else c

/-- The alternatives of the negation regex, in the order they appear in
the source pattern. -/
def markers : List (List Char) :=
  [ ['n','o','t'], ['n','o'], ['n','e','v','e','r'],
    ['d','o','n',apos,'t'], ['d','o','e','s','n',apos,'t'],
    ['d','i','d','n',apos,'t'], ['w','o','n',apos,'t'],
    ['w','o','u','l','d','n',apos,'t'], ['c','a','n',apos,'t'],
    ['c','o','u','l','d','n',apos,'t'] ]

/-- Attempt to match one regex alternative at the current position:
the literal marker `m`, then `\s+`, then `\w+`.  On success, returns the
remainder of the input after the greedy `\w+` group. -/
def tryMatch1 (m cs : List Char) : Option (List Char) :=
  if m.isPrefixOf cs then
    match cs.drop m.length with
    | [] => none
    | c :: r =>
      if isWs c then
        match r.dropWhile isWs with
        | [] => none
        | d :: r3 => if isWordChar d then some (r3.dropWhile isWordChar) else none
      else none
  else none

/-- Try the regex alternatives in order at the current position. -/
def tryMatchAll : List (List Char) → List Char → Option (List Char)
  | [], _ => none
  | m :: ms, cs =>
    match tryMatch1 m cs with
    | some r => some r
    | none => tryMatchAll ms cs

/-- Try a full negation-pattern match at the current position. -/
def tryMatch (cs : List Char) : Option (List Char) := tryMatchAll markers cs

/-- Fuel-indexed leftmost global scan counting matches of the negation
pattern, as `String.prototype.match` with the `g` flag does. -/
def scanNegF : Nat → List Char → Nat
  | 0, _ => 0
  | Nat.succ _, [] => 0
  | Nat.succ n, c :: cs =>
    match tryMatch (c :: cs) with
    | some r => scanNegF n r + 1
    | none => scanNegF n cs

/-- Number of matches of the negation regex in the text. -/
def countNeg (cs : List Char) : Nat := scanNegF cs.length cs

/-- Fuel-indexed worker for splitting on `\s+` (JavaScript
`String.prototype.split` with a whitespace-run regex). -/
def splitWsF : Nat → List Char → List Char → List (List Char)
  | 0, _, acc => [acc.reverse]
  | Nat.succ _, [], acc => [acc.reverse]
  | Nat.succ n, c :: cs, acc =>
    if isWs c then acc.reverse :: splitWsF n (cs.dropWhile isWs) []
    else splitWsF n cs (c :: acc)

/-- Split a text on runs of whitespace, keeping the (possibly empty) first
and last fields, exactly as `text.split(/\s+/)` does. -/
def splitWs (cs : List Char) : List (List Char) := splitWsF cs.length cs []

/-- Unfolding form of `splitWs` through an explicit accumulator. -/
def splitWsGo (cs acc : List Char) : List (List Char) := splitWsF cs.length cs acc

/-- The positive lexicon (identical in `src/utils/voiceAnalysis.ts` and
`src/backend/server.js`). -/
def positiveWords : List (List Char) :=
  [ ['h','a','p','p','y'], ['j','o','y'], ['l','o','v','e'],
    ['e','x','c','e','l','l','e','n','t'], ['g','o','o','d'],
    ['g','r','e','a','t'], ['w','o','n','d','e','r','f','u','l'],
    ['f','a','n','t','a','s','t','i','c'], ['a','m','a','z','i','n','g'],
    ['p','o','s','i','t','i','v','e'], ['e','x','c','i','t','e','d'],
    ['g','r','a','t','e','f','u','l'], ['b','l','e','s','s','e','d'],
    ['p','e','a','c','e','f','u','l'], ['c','a','l','m'],
    ['b','e','t','t','e','r'], ['i','m','p','r','o','v','e','d'],
    ['p','r','o','g','r','e','s','s'], ['s','u','c','c','e','s','s'] ]

/-- The negative lexicon (identical in both sentiment implementations). -/
def negativeWords : List (List Char) :=
  [ ['s','a','d'], ['a','n','g','r','y'], ['h','a','t','e'],
    ['b','a','d'], ['t','e','r','r','i','b','l','e'],
    ['a','w','f','u','l'], ['h','o','r','r','i','b','l','e'],
    ['d','e','p','r','e','s','s','e','d'], ['a','n','x','i','o','u','s'],
    ['w','o','r','r','i','e','d'], ['s','c','a','r','e','d'],
    ['l','o','n','e','l','y'], ['h','o','p','e','l','e','s','s'],
    ['s','t','r','e','s','s','e','d'],
    ['o','v','e','r','w','h','e','l','m','e','d'],
    ['e','x','h','a','u','s','t','e','d'], ['t','i','r','e','d'],
    ['h','u','r','t'], ['p','a','i','n'] ]

/-- Accumulated raw sentiment value of the frontend `analyzeSentiment`
(`src/utils/voiceAnalysis.ts`, lines 89-126), before rounding and clamping:
baseline 5, plus 0.5 per positive-lexicon token, minus 0.5 per
negative-lexicon token, minus 0.3 per negation-regex match, plus 0.2 per
exclamation mark, minus 0.3 once when more than two question marks occur. -/
def sentimentRaw (text : List Char) : ℚ :=
  let low := text.map toLowerChar
  let words := splitWs low
  5 + ((words.countP (fun t => decide (t ∈ positiveWords)) : ℚ)) * (1/2)
    - ((words.countP (fun t => decide (t ∈ negativeWords)) : ℚ)) * (1/2)
    - ((countNeg low : ℚ)) * (3/10)
    + ((text.count '!' : ℚ)) * (1/5)
    - (if 2 < text.count '?' then (3/10 : ℚ) else 0)

/-- Frontend text sentiment scorer `analyzeSentiment`
(`src/utils/voiceAnalysis.ts`): rounds the raw value to the nearest integer
(`Math.round`, half toward positive infinity) and clamps to [1,10]. -/
def analyzeSentiment (text : List Char) : ℤ :=
  max 1 (min 10 (round (sentimentRaw text)))

/-- Accumulated raw sentiment value of the backend duplicate
`analyzeSentiment` (`src/backend/server.js`, lines 111-138).  It is the
same heuristic except that it has no question-mark rule. -/
def sentimentRawServer (text : List Char) : ℚ :=
  let low := text.map toLowerChar
  let words := splitWs low
  5 + ((words.countP (fun t => decide (t ∈ positiveWords)) : ℚ)) * (1/2)
    - ((words.countP (fun t => decide (t ∈ negativeWords)) : ℚ)) * (1/2)
    - ((countNeg low : ℚ)) * (3/10)
    + ((text.count '!' : ℚ)) * (1/5)

/-- Backend text sentiment scorer (`src/backend/server.js`). -/
def analyzeSentimentServer (text : List Char) : ℤ :=
  max 1 (min 10 (round (sentimentRawServer text)))

/-- Acoustic feature snapshot consumed by the voice scorer
(`VoiceFeatures` in the spec; the fields Meyda delivers). -/
structure VoiceFeatures where
  energy : ℚ
  rms : ℚ
  zcr : ℚ
  spectralCentroid : ℚ
deriving DecidableEq, Repr

/-- The scoring-relevant part of a `VoiceAnalysis` record. -/
structure VoiceScore where
  moodScore : ℤ
  clarity : String
deriving DecidableEq, Repr

/-- Pure scoring core of `VoiceAnalyzer.getCurrentFeatures`
(`src/utils/voiceAnalysis.ts`, lines 51-72): energy sub-score
`min(energy*100, 10)`, clarity sub-score `max(0, 10 - zcr/100)`, weighted
round, clamp to [1,10]; clarity label from rms thresholds. -/
def scoreVoice (f : VoiceFeatures) : VoiceScore :=
  let energyScore : ℚ := min (f.energy * 100) 10
  let clarityScore : ℚ := max 0 (10 - f.zcr / 100)
  let moodScore : ℤ := round (energyScore * (6/10) + clarityScore * (4/10))
  let clarity : String :=
    if f.rms > 1/2 then "clear"
    else if f.rms < 1/5 then "unclear"
    else "moderate"
  { moodScore := max 1 (min 10 moodScore), clarity := clarity }

/-- State-dependent entry point `VoiceAnalyzer.getCurrentFeatures`
(`src/utils/voiceAnalysis.ts`, lines 44-49): `none` in the outer layer
models `this.analyzer` being null (analysis never started), `none` in the
inner layer models `analyzer.get()` returning no feature frame yet. -/
def getCurrentFeatures : Option (Option VoiceFeatures) → Option VoiceScore
  | none => none
  | some none => none
  | some (some f) => some (scoreVoice f)

/-- Adjacent-pair decline test of `shouldIntervene`
(`src/utils/voiceAnalysis.ts`, lines 137-140): every entry after the first
must not exceed its predecessor by more than 1. -/
def declineOk : List ℚ → Bool
  | [] => true
  | [_] => true
  | a :: b :: r => decide (b ≤ a + 1) && declineOk (b :: r)

/-- Intervention trigger `shouldIntervene` (`src/utils/voiceAnalysis.ts`,
lines 129-144), over the chronologically ordered mood history: requires at
least 5 entries, takes the last 7 (`slice(-7)`), and fires when their mean
is below 4, or they form a tolerant decline and their mean is below 5.5. -/
def shouldIntervene (history : List ℚ) : Bool :=
  if history.length < 5 then false
  else
    let recent := history.drop (history.length - 7)
    let avgMood : ℚ := recent.sum / (recent.length : ℚ)
    decide (avgMood < 4) || (declineOk recent && decide (avgMood < 11/2))

/-- Trend report returned by `GET /mood/trend-status`. -/
structure TrendStatus where
  status : String
  message : String
  avgMood : Option ℚ
deriving DecidableEq, Repr

/-- Rounding to one decimal place, as `parseFloat(x.toFixed(1))`. -/
def round1 (q : ℚ) : ℚ := (round (10 * q) : ℤ) / 10

/-- Trend evaluation of `GET /mood/trend-status` (`src/backend/server.js`,
lines 237-272) on the user's mood history, newest first: the first 7
entries are averaged and classified; an empty history yields a default
stable report with no average. -/
def trendStatus (history : List ℚ) : TrendStatus :=
  let recent := history.take 7
  if recent.length = 0 then
    { status := "stable",
      message := "Start journaling to track your mood trends",
      avgMood := none }
  else
    let avgMood : ℚ := recent.sum / (recent.length : ℚ)
    if avgMood ≥ 7 then
      { status := "stable", message := "Your mood has been stable and positive",
        avgMood := some (round1 avgMood) }
    else if avgMood ≥ 4 then
      { status := "fluctuating", message := "Your mood has been fluctuating recently",
        avgMood := some (round1 avgMood) }
    else
      { status := "negative", message := "Your mood has been low recently",
        avgMood := some (round1 avgMood) }

/-- Mood stored by `POST /journal/text` (`src/backend/server.js`, lines
141-174).  `mood` is the request-body mood (`none` when absent, `some 0`
is falsy in JavaScript); when it is falsy and the content is non-empty the
sentiment score is used, and a still-falsy mood falls back to 5. -/
def storedTextMood (content : List Char) (mood : Option ℤ) : ℤ :=
  let m : Option ℤ :=
    if (mood = none ∨ mood = some 0) ∧ content ≠ [] then
      some (analyzeSentiment content)
    else mood
  match m with
  | none => 5
  | some k => if k = 0 then 5 else k

/-- Mood stored by `POST /journal/voice` (`src/backend/server.js`, lines
177-209): the parsed request-body mood when present, otherwise 5. -/
def storedVoiceMood (mood : Option ℤ) : ℤ :=
  match mood with
  | none => 5
  | some k => k

/-- A stored journal entry (the fields used by the mood endpoints). -/
structure Journal where
  id : Nat
  userId : Nat
  mood : ℚ
  date : ℤ
  source : String
deriving DecidableEq, Repr

/-- An entry of the `GET /mood/history` response. -/
structure HistoryEntry where
  id : Nat
  date : ℤ
  mood : ℚ
  source : String
deriving DecidableEq, Repr

/-- Projection applied by `GET /mood/history` to each journal. -/
def toHistoryEntry (j : Journal) : HistoryEntry :=
  { id := j.id, date := j.date, mood := j.mood, source := j.source }

/-- `GET /mood/history` (`src/backend/server.js`, lines 214-234): filter
the store to the requesting user, sort newest first by date, keep the
first 30, and project the response fields. -/
def moodHistory (journals : List Journal) (uid : Nat) : List HistoryEntry :=
  ((((journals.filter (fun j => j.userId == uid)).mergeSort
      (fun a b => b.date ≤ a.date)).take 30).map toHistoryEntry)

/-- Result of the score aggregator. -/
structure CombinedResult where
  finalScore : ℚ
  magnitude : ℚ
  high : Bool
deriving DecidableEq, Repr

/-- Modelled from the spec: the aggregator `combine` lives in the
`mood-analysis-system` Python service, which is absent from this snapshot;
only its configuration defaults (`VOICE_WEIGHT=0.6`, `TEXT_WEIGHT=0.4`,
`DISCREPANCY_THRESHOLD=2.0`) appear in the README.  Per the spec,
`finalScore = voiceScore*voiceWeight + textScore*textWeight`, the
discrepancy magnitude is `|textScore - voiceScore|`, and a magnitude at or
above the threshold is flagged high. -/
def combine (textScore voiceScore textWeight voiceWeight threshold : ℚ) :
    CombinedResult :=
  { finalScore := voiceScore * voiceWeight + textScore * textWeight,
    magnitude := |textScore - voiceScore|,
    high := decide (threshold ≤ |textScore - voiceScore|) }

/-- Modelled from the spec: `combine` at the documented default weights
and discrepancy threshold. -/
def combineDefault (textScore voiceScore : ℚ) : CombinedResult :=
  combine textScore voiceScore (4/10) (6/10) 2

/-- True when the token begins with a word character (so it can serve as
the `\w+` group following a negation marker). -/
def wordStart : List Char → Bool
  | [] => false
  | c :: _ => isWordChar c

/-- Remainder of a token after the greedy `\w+` group consumed its leading
run of word characters. -/
def chop (t : List Char) : List Char := t.dropWhile isWordChar

/-- True when some negation marker is a suffix of the token (the only
position inside a whitespace-free token where the marker can be followed
by `\s+`). -/
def hasMarkerSuffix (t : List Char) : Bool :=
  markers.any (fun m => m.isSuffixOf t)

/-- Render a token list as a single-space-separated text. -/
def render : List (List Char) → List Char
  | [] => []
  | [t] => t
  | t :: u :: rest => t ++ ' ' :: render (u :: rest)

/-- Token-level description of the leftmost global negation scan: a token
with a marker suffix pairs with an immediately following token that starts
with a word character, whose leading word run is then consumed. -/
def negPairs : List (List Char) → Nat
  | [] => 0
  | [_] => 0
  | t :: u :: rest =>
    if hasMarkerSuffix t && wordStart u then negPairs (chop u :: rest) + 1
    else negPairs (u :: rest)
termination_by l => (l.map List.length).sum + l.length
decreasing_by
· have h1 : (chop u).length ≤ u.length := (List.dropWhile_suffix isWordChar).length_le
  simp only [List.map_cons, List.sum_cons, List.length_cons]
  omega
· simp only [List.map_cons, List.sum_cons, List.length_cons]
  omega

/-!  Fuel adequacy for the scanner and splitter. -/

theorem tryMatch1_shrink {m cs r : List Char} (h : tryMatch1 m cs = some r) :
    r.length < cs.length := by
  unfold tryMatch1 at h
  by_cases hp : m.isPrefixOf cs
  · simp only [hp, if_true] at h
    rcases hd : cs.drop m.length with _ | ⟨c, r0⟩ <;> rw [hd] at h
    · exact absurd h (by simp)
    · by_cases hw : isWs c
      · simp only [hw, if_true] at h
        rcases hd2 : r0.dropWhile isWs with _ | ⟨d, r3⟩ <;> rw [hd2] at h
        · exact absurd h (by simp)
        · by_cases hwc : isWordChar d
          · simp only [hwc, if_true, Option.some.injEq] at h
            subst h
            have l1 : (r3.dropWhile isWordChar).length ≤ r3.length :=
              (List.dropWhile_suffix isWordChar).length_le
            have l2 : (d :: r3).length ≤ r0.length := by
              rw [← hd2]; exact (List.dropWhile_suffix isWs).length_le
            have l3 : (c :: r0).length ≤ cs.length := by
              rw [← hd]; exact (List.drop_sublist _ _).length_le
            simp only [List.length_cons] at l2 l3
            omega
          · simp [hwc] at h
      · simp [hw] at h
  · simp [hp] at h

theorem tryMatchAll_shrink :
    ∀ (ms : List (List Char)) {cs r : List Char},
      tryMatchAll ms cs = some r → r.length < cs.length := by
  intro ms
  induction ms with
  | nil => intro cs r h; exact absurd h (by simp [tryMatchAll])
  | cons m ms ih =>
    intro cs r h
    have hstep : tryMatchAll (m :: ms) cs =
        match tryMatch1 m cs with
        | some r1 => some r1
        | none => tryMatchAll ms cs := rfl
    rw [hstep] at h
    rcases h1 : tryMatch1 m cs with _ | r1
    · rw [h1] at h; exact ih h
    · rw [h1] at h
      cases h
      exact tryMatch1_shrink h1

theorem tryMatch_shrink {cs r : List Char} (h : tryMatch cs = some r) :
    r.length < cs.length :=
  tryMatchAll_shrink markers h

theorem scanNegF_congr :
    ∀ n : Nat, ∀ cs : List Char, ∀ m : Nat,
      cs.length ≤ n → cs.length ≤ m → scanNegF n cs = scanNegF m cs := by
  intro n
  induction n with
  | zero =>
    intro cs m hn _
    have : cs = [] := List.length_eq_zero.mp (Nat.le_zero.mp hn)
    subst this
    cases m <;> rfl
  | succ n ih =>
    intro cs m hn hm
    rcases cs with _ | ⟨c, cs'⟩
    · cases m <;> rfl
    · rcases m with _ | m'
      · exact absurd hm (by simp)
      · simp only [scanNegF]
        rcases h : tryMatch (c :: cs') with _ | r
        · simp only [h]
          simp only [List.length_cons] at hn hm
          exact ih cs' m' (by omega) (by omega)
        · simp only [h]
          have hr := tryMatch_shrink h
          simp only [List.length_cons] at hn hm hr
          exact congrArg (· + 1) (ih r m' (by omega) (by omega))

theorem countNeg_cons_none {c : Char} {cs : List Char}
    (h : tryMatch (c :: cs) = none) : countNeg (c :: cs) = countNeg cs := by
  unfold countNeg
  simp only [List.length_cons, scanNegF, h]

theorem countNeg_cons_some {c : Char} {cs r : List Char}
    (h : tryMatch (c :: cs) = some r) : countNeg (c :: cs) = countNeg r + 1 := by
  unfold countNeg
  simp only [List.length_cons, scanNegF, h]
  have hr := tryMatch_shrink h
  simp only [List.length_cons] at hr
  exact congrArg (· + 1) (scanNegF_congr cs.length r r.length (by omega) le_rfl)

theorem splitWsF_congr :
    ∀ n : Nat, ∀ cs acc : List Char, ∀ m : Nat,
      cs.length ≤ n → cs.length ≤ m → splitWsF n cs acc = splitWsF m cs acc := by
  intro n
  induction n with
  | zero =>
    intro cs acc m hn _
    have : cs = [] := List.length_eq_zero.mp (Nat.le_zero.mp hn)
    subst this
    cases m <;> rfl
  | succ n ih =>
    intro cs acc m hn hm
    rcases cs with _ | ⟨c, cs'⟩
    · cases m <;> rfl
    · rcases m with _ | m'
      · exact absurd hm (by simp)
      · simp only [splitWsF, List.length_cons] at hn hm ⊢
        cases hw : isWs c
        · simp only [hw, Bool.false_eq_true, if_false]
          rw [ih cs' (c :: acc) m' (by omega) (by omega)]
        · simp only [hw, if_true]
          have hd : (cs'.dropWhile isWs).length ≤ cs'.length :=
            (List.dropWhile_suffix isWs).length_le
          rw [ih (cs'.dropWhile isWs) [] m' (by omega) (by omega)]

theorem splitWsGo_nil (acc : List Char) : splitWsGo [] acc = [acc.reverse] := rfl

theorem splitWsGo_cons (c : Char) (cs acc : List Char) :
    splitWsGo (c :: cs) acc =
      if isWs c then acc.reverse :: splitWsGo (cs.dropWhile isWs) []
      else splitWsGo cs (c :: acc) := by
  unfold splitWsGo
  simp only [List.length_cons, splitWsF]
  by_cases hw : isWs c
  · simp only [hw, if_true]
    have hd : (cs.dropWhile isWs).length ≤ cs.length :=
      (List.dropWhile_suffix isWs).length_le
    rw [splitWsF_congr cs.length (cs.dropWhile isWs) [] (cs.dropWhile isWs).length
      (by omega) le_rfl]
  · simp only [hw, if_false]
    rfl

theorem splitWs_eq_go (cs : List Char) : splitWs cs = splitWsGo cs [] := rfl

/-!  Decline test versus adjacent-pair chains. -/

theorem declineOk_iff (l : List ℚ) :
    declineOk l = true ↔ l.Chain' (fun a b => b ≤ a + 1) := by
  induction l with
  | nil => simp [declineOk]
  | cons a l ih =>
    cases l with
    | nil => simp [declineOk]
    | cons b r =>
      rw [List.chain'_cons, ← ih]
      simp [declineOk, Bool.and_eq_true, decide_eq_true_eq]

/-- C3: `shouldIntervene` returns false on any history with fewer than 5
entries, and on a history with at least 5 entries it returns true exactly
when the mean of the most recent 7 entries (the last 7, reading the
history in chronological order) is below 4, or that window is a tolerant
decline — no entry exceeds its predecessor by more than 1 — and the mean
is below 5.5. -/
theorem claim_C3_shouldIntervene (h : List ℚ) :
    shouldIntervene h = true ↔
      5 ≤ h.length ∧
      ((h.drop (h.length - 7)).sum / ((h.drop (h.length - 7)).length : ℚ) < 4 ∨
       (List.Chain' (fun a b => b ≤ a + 1) (h.drop (h.length - 7)) ∧
        (h.drop (h.length - 7)).sum / ((h.drop (h.length - 7)).length : ℚ) < 11/2)) := by
  unfold shouldIntervene
  by_cases hl : h.length < 5
  · simp only [hl, if_true]
    constructor
    · intro hfalse; exact absurd hfalse (by simp)
    · intro ⟨h5, _⟩; omega
  · simp only [hl, if_false]
    push_neg at hl
    simp [Bool.or_eq_true, Bool.and_eq_true, decide_eq_true_eq, declineOk_iff, hl]

/-- C4: `GET /mood/trend-status` on an empty history returns the default
stable classification with an explanatory message and no average; on a
non-empty history it averages the most recent 7 entries, classifies the
mean (≥ 7 stable, ≥ 4 fluctuating, otherwise negative) and reports the
mean rounded to one decimal place. -/
theorem claim_C4_trendStatus (h : List ℚ) (hne : h ≠ []) :
    trendStatus [] =
      { status := "stable",
        message := "Start journaling to track your mood trends",
        avgMood := none } ∧
    (trendStatus h).status =
      (if 7 ≤ (h.take 7).sum / ((h.take 7).length : ℚ) then "stable"
       else if 4 ≤ (h.take 7).sum / ((h.take 7).length : ℚ) then "fluctuating"
       else "negative") ∧
    (trendStatus h).avgMood =
      some (round1 ((h.take 7).sum / ((h.take 7).length : ℚ))) := by
  refine ⟨rfl, ?_, ?_⟩ <;>
  · rcases h with _ | ⟨a, t⟩
    · exact absurd rfl hne
    · unfold trendStatus
      have hlen : ((a :: t).take 7).length ≠ 0 := by
        simp [List.length_take]
      simp only [hlen, if_false, ge_iff_le]
      split_ifs <;> rfl

/-- C4 witness: the concrete one-entry history `[8]`. -/
theorem claim_C4_trendStatus_witness :
    trendStatus [] =
      { status := "stable",
        message := "Start journaling to track your mood trends",
        avgMood := none } ∧
    (trendStatus [(8 : ℚ)]).status =
      (if 7 ≤ ([(8 : ℚ)].take 7).sum / (([(8 : ℚ)].take 7).length : ℚ) then "stable"
       else if 4 ≤ ([(8 : ℚ)].take 7).sum / (([(8 : ℚ)].take 7).length : ℚ) then "fluctuating"
       else "negative") ∧
    (trendStatus [(8 : ℚ)]).avgMood =
      some (round1 (([(8 : ℚ)].take 7).sum / (([(8 : ℚ)].take 7).length : ℚ))) :=
  claim_C4_trendStatus [(8 : ℚ)] (by simp)

/-- C5: the voice scorer computes its mood score as the 0.6/0.4-weighted
combination of the energy and clarity sub-scores, rounded and clamped to
[1,10], and labels clarity clear above rms 0.5, unclear below rms 0.2 and
moderate otherwise. -/
theorem claim_C5_scoreVoice (f : VoiceFeatures) :
    (scoreVoice f).moodScore =
      max 1 (min 10 (round ((6/10 : ℚ) * min (f.energy * 100) 10 +
        (4/10 : ℚ) * max 0 (10 - f.zcr / 100)))) ∧
    (scoreVoice f).clarity =
      (if f.rms > 1/2 then "clear"
       else if f.rms < 1/5 then "unclear"
       else "moderate") := by
  constructor
  · have harg : min (f.energy * 100) 10 * (6/10) + max 0 (10 - f.zcr / 100) * (4/10) =
        (6/10 : ℚ) * min (f.energy * 100) 10 + (4/10 : ℚ) * max 0 (10 - f.zcr / 100) := by
      ring
    show max 1 (min 10 (round (min (f.energy * 100) 10 * (6/10) +
      max 0 (10 - f.zcr / 100) * (4/10)))) = _
    rw [harg]
  · rfl

/-- C8: when the analyzer was never started, or no feature frame has been
extracted yet, `getCurrentFeatures` returns the explicit absence value
`none` (the embedding is a total function, so no exception is possible,
and no score is fabricated). -/
theorem claim_C8_getCurrentFeatures :
    getCurrentFeatures none = none ∧ getCurrentFeatures (some none) = none :=
  ⟨rfl, rfl⟩

/-- C9: at the documented default weights (0.4 text, 0.6 voice) and
discrepancy threshold (2.0), combining text score 7 with voice score 4.5
yields final score 5.5, discrepancy magnitude 2.5, flagged high. -/
theorem claim_C9_combine :
    (combineDefault 7 (9/2)).finalScore = 11/2 ∧
    (combineDefault 7 (9/2)).magnitude = 5/2 ∧
    (combineDefault 7 (9/2)).high = true := by
  have habs : |(7 : ℚ) - 9/2| = 5/2 := by
    rw [abs_of_nonneg] <;> norm_num
  refine ⟨by norm_num [combineDefault, combine], ?_, ?_⟩
  · show |(7 : ℚ) - 9/2| = 5/2
    exact habs
  · show decide ((2 : ℚ) ≤ |(7 : ℚ) - 9/2|) = true
    rw [decide_eq_true_eq, habs]
    norm_num

/-- C10: the mood-history endpoint returns only entries of the requesting
user, in newest-first date order, and at most 30 of them. -/
theorem claim_C10_moodHistory (journals : List Journal) (uid : Nat) :
    (∀ e ∈ moodHistory journals uid,
       ∃ j ∈ journals, j.userId = uid ∧ e = toHistoryEntry j) ∧
    List.Pairwise (fun a b : HistoryEntry => b.date ≤ a.date)
      (moodHistory journals uid) ∧
    (moodHistory journals uid).length ≤ 30 := by
  refine ⟨?_, ?_, ?_⟩
  · intro e he
    unfold moodHistory at he
    rcases List.mem_map.mp he with ⟨j, hj, rfl⟩
    have hj1 : j ∈ (journals.filter (fun j => j.userId == uid)).mergeSort
        (fun a b => b.date ≤ a.date) :=
      (List.take_sublist _ _).mem hj
    have hj2 : j ∈ journals.filter (fun j => j.userId == uid) :=
      List.mem_mergeSort.mp hj1
    rcases List.mem_filter.mp hj2 with ⟨hmem, huid⟩
    exact ⟨j, hmem, by simpa using huid, rfl⟩
  · unfold moodHistory
    rw [List.pairwise_map]
    refine List.Pairwise.sublist (List.take_sublist _ _) ?_
    have hs := @List.sorted_mergeSort Journal
      (fun a b : Journal => decide (b.date ≤ a.date))
      (fun a b c hab hbc => by
        rw [decide_eq_true_eq] at *
        exact le_trans hbc hab)
      (fun a b => by
        rcases le_total a.date b.date with hle | hle <;>
          simp [hle])
      (journals.filter (fun j => j.userId == uid))
    exact hs.imp (fun hab => by
      rw [decide_eq_true_eq] at hab
      exact hab)
  · unfold moodHistory
    rw [List.length_map]
    have := List.length_take 30
      ((journals.filter (fun j => j.userId == uid)).mergeSort
        (fun a b => b.date ≤ a.date))
    omega

/-!  Sentiment scorer: clamp bounds and whitespace-only texts. -/

theorem clamp110_bounds (r : ℤ) :
    1 ≤ max 1 (min 10 r) ∧ max 1 (min 10 r) ≤ 10 :=
  ⟨le_max_left _ _, max_le (by norm_num) (min_le_left _ _)⟩

theorem markers_facts :
    ∀ m ∈ markers, m ≠ [] ∧ ∀ c ∈ m, isWs c = false := by decide

theorem tryMatchAll_none_ws {c : Char} {cs : List Char} (hc : isWs c = true) :
    ∀ ms : List (List Char),
      (∀ m ∈ ms, m ≠ [] ∧ ∀ d ∈ m, isWs d = false) →
      tryMatchAll ms (c :: cs) = none := by
  intro ms
  induction ms with
  | nil => intro _; rfl
  | cons m ms ih =>
    intro hfacts
    rcases hfacts m (by simp) with ⟨hne, hws⟩
    rcases m with _ | ⟨d, ds⟩
    · exact absurd rfl hne
    · have hd : isWs d = false := hws d (by simp)
      have hdc : (d == c) = false := by
        cases hb : (d == c) with
        | false => rfl
        | true =>
          rw [beq_iff_eq] at hb
          subst hb
          rw [hd] at hc
          exact absurd hc (by simp)
      have h1 : tryMatch1 (d :: ds) (c :: cs) = none := by
        unfold tryMatch1
        have hpre : (d :: ds).isPrefixOf (c :: cs) = false := by
          simp only [List.isPrefixOf, hdc, Bool.false_and]
        rw [hpre]
        simp
      have hstep : tryMatchAll ((d :: ds) :: ms) (c :: cs) =
          match tryMatch1 (d :: ds) (c :: cs) with
          | some r1 => some r1
          | none => tryMatchAll ms (c :: cs) := rfl
      rw [hstep, h1]
      exact ih (fun m hm => hfacts m (List.mem_cons_of_mem _ hm))

theorem tryMatch_ws_head {c : Char} {cs : List Char} (hc : isWs c = true) :
    tryMatch (c :: cs) = none :=
  tryMatchAll_none_ws hc markers markers_facts

theorem countNeg_all_ws :
    ∀ cs : List Char, (∀ c ∈ cs, isWs c = true) → countNeg cs = 0 := by
  intro cs
  induction cs with
  | nil => intro _; rfl
  | cons c cs ih =>
    intro h
    rw [countNeg_cons_none (tryMatch_ws_head (h c (by simp)))]
    exact ih (fun d hd => h d (List.mem_cons_of_mem _ hd))

theorem splitWs_all_ws (cs : List Char) (h : ∀ c ∈ cs, isWs c = true) :
    ∀ t ∈ splitWs cs, t = [] := by
  rw [splitWs_eq_go]
  rcases cs with _ | ⟨c, cs'⟩
  · intro t ht
    simp only [splitWsGo_nil, List.mem_singleton] at ht
    simpa using ht
  · rw [splitWsGo_cons]
    have hc : isWs c = true := h c (by simp)
    have hdrop : cs'.dropWhile isWs = [] :=
      List.dropWhile_eq_nil_iff.mpr (fun d hd => h d (List.mem_cons_of_mem _ hd))
    rw [if_pos hc, hdrop, splitWsGo_nil]
    intro t ht
    simp only [List.reverse_nil, List.mem_cons, List.mem_singleton] at ht
    rcases ht with h1 | h1 | h1
    · exact h1
    · exact h1
    · exact absurd h1 (by simp)

theorem toLowerChar_ws {c : Char} (hc : isWs c = true) : toLowerChar c = c := by
  simp only [isWs, Bool.or_eq_true, beq_iff_eq] at hc
  rcases hc with ((((h | h) | h) | h) | h) | h <;> subst h <;> decide

/-- Range and whitespace behaviour of one scorer, parameterized over the
clamped value so both implementations can share it. -/
theorem sentiment_ws_raw (text : List Char) (h : ∀ c ∈ text, isWs c = true) :
    sentimentRaw text = 5 ∧ sentimentRawServer text = 5 := by
  have hlow : text.map toLowerChar = text := by
    rw [show text.map toLowerChar = text.map id from
      List.map_congr_left (fun c hc => toLowerChar_ws (h c hc)), List.map_id]
  have hwords : ∀ t ∈ splitWs text, t = [] := splitWs_all_ws text h
  have hpos : (splitWs text).countP (fun t => decide (t ∈ positiveWords)) = 0 := by
    rw [List.countP_eq_zero]
    intro t ht
    rw [hwords t ht]
    decide
  have hneg2 : (splitWs text).countP (fun t => decide (t ∈ negativeWords)) = 0 := by
    rw [List.countP_eq_zero]
    intro t ht
    rw [hwords t ht]
    decide
  have hneg : countNeg text = 0 := countNeg_all_ws text h
  have hexc : text.count '!' = 0 := by
    rw [List.count_eq_zero]
    intro hmem
    have := h '!' hmem
    exact absurd this (by decide)
  have hq : text.count '?' = 0 := by
    rw [List.count_eq_zero]
    intro hmem
    have := h '?' hmem
    exact absurd this (by decide)
  constructor
  · simp only [sentimentRaw, hlow, hpos, hneg2, hneg, hexc, hq]
    norm_num
  · simp only [sentimentRawServer, hlow, hpos, hneg2, hneg, hexc, hq]
    norm_num

theorem round_five : round ((5 : ℚ)) = (5 : ℤ) := by
  rw [show ((5 : ℚ)) = (((5 : ℤ) : ℚ)) by norm_num, round_intCast]

/-- C2: both text sentiment scorers always return an integer in [1,10],
and on an empty or whitespace-only text they return exactly 5. -/
theorem claim_C2_scoreText :
    (∀ text : List Char,
      1 ≤ analyzeSentiment text ∧ analyzeSentiment text ≤ 10 ∧
      1 ≤ analyzeSentimentServer text ∧ analyzeSentimentServer text ≤ 10) ∧
    (∀ text : List Char, (∀ c ∈ text, isWs c = true) →
      analyzeSentiment text = 5 ∧ analyzeSentimentServer text = 5) := by
  constructor
  · intro text
    exact ⟨(clamp110_bounds _).1, (clamp110_bounds _).2,
      (clamp110_bounds _).1, (clamp110_bounds _).2⟩
  · intro text h
    rcases sentiment_ws_raw text h with ⟨h1, h2⟩
    constructor
    · unfold analyzeSentiment
      rw [h1, round_five]
      norm_num
    · unfold analyzeSentimentServer
      rw [h2, round_five]
      norm_num

/-- C2 witness: the empty text and a single-space text both score 5. -/
theorem claim_C2_scoreText_witness :
    analyzeSentiment [' '] = 5 ∧ analyzeSentimentServer [' '] = 5 :=
  claim_C2_scoreText.2 [' '] (by decide)

/-!  The duplicated sentiment implementations and the journal endpoints. -/

/-- C7 counterexample: on the text `happy ???` (three question marks) the
frontend scorer applies its uncertainty penalty and returns 5, while the
backend duplicate, which lacks the question-mark rule, returns 6. -/
theorem claim_C7_counterexample :
    analyzeSentiment ['h','a','p','p','y',' ','?','?','?'] = 5 ∧
    analyzeSentimentServer ['h','a','p','p','y',' ','?','?','?'] = 6 ∧
    analyzeSentiment ['h','a','p','p','y',' ','?','?','?'] ≠
      analyzeSentimentServer ['h','a','p','p','y',' ','?','?','?'] := by
  have hlow : (['h','a','p','p','y',' ','?','?','?'] : List Char).map toLowerChar =
      ['h','a','p','p','y',' ','?','?','?'] := by decide
  have hpos : (splitWs ['h','a','p','p','y',' ','?','?','?']).countP
      (fun t => decide (t ∈ positiveWords)) = 1 := by decide
  have hneg2 : (splitWs ['h','a','p','p','y',' ','?','?','?']).countP
      (fun t => decide (t ∈ negativeWords)) = 0 := by decide
  have hneg : countNeg ['h','a','p','p','y',' ','?','?','?'] = 0 := by decide
  have hexc : (['h','a','p','p','y',' ','?','?','?'] : List Char).count '!' = 0 := by
    decide
  have hq : (['h','a','p','p','y',' ','?','?','?'] : List Char).count '?' = 3 := by
    decide
  have hraw : sentimentRaw ['h','a','p','p','y',' ','?','?','?'] = 26/5 := by
    simp only [sentimentRaw, hlow, hpos, hneg2, hneg, hexc, hq]
    norm_num
  have hrawS : sentimentRawServer ['h','a','p','p','y',' ','?','?','?'] = 11/2 := by
    simp only [sentimentRawServer, hlow, hpos, hneg2, hneg, hexc]
    norm_num
  have hr1 : round ((26 : ℚ)/5) = (5 : ℤ) := by
    rw [round_eq]
    exact Int.floor_eq_iff.mpr ⟨by norm_num, by norm_num⟩
  have hr2 : round ((11 : ℚ)/2) = (6 : ℤ) := by
    rw [round_eq]
    exact Int.floor_eq_iff.mpr ⟨by norm_num, by norm_num⟩
  have h1 : analyzeSentiment ['h','a','p','p','y',' ','?','?','?'] = 5 := by
    unfold analyzeSentiment
    rw [hraw, hr1]
    norm_num
  have h2 : analyzeSentimentServer ['h','a','p','p','y',' ','?','?','?'] = 6 := by
    unfold analyzeSentimentServer
    rw [hrawS, hr2]
    norm_num
  exact ⟨h1, h2, by rw [h1, h2]; omega⟩

/-- C7 (amended): the two duplicate sentiment implementations agree on
every text with at most two question marks; they differ only through the
frontend-only uncertainty penalty. -/
theorem claim_C7_duplicates (text : List Char) (h : text.count '?' ≤ 2) :
    analyzeSentimentServer text = analyzeSentiment text := by
  have hq : ¬ (2 < text.count '?') := by omega
  unfold analyzeSentiment analyzeSentimentServer
  have hraw : sentimentRaw text = sentimentRawServer text := by
    simp only [sentimentRaw, sentimentRawServer, hq, if_false]
    ring
  rw [hraw]

/-- C7 witness: both implementations agree on the empty text. -/
theorem claim_C7_duplicates_witness :
    analyzeSentimentServer [] = analyzeSentiment [] :=
  claim_C7_duplicates [] (by decide)

/-- C1 counterexample: a caller-supplied mood of 11 is stored verbatim by
both journal endpoints; no clamping to [1,10] happens. -/
theorem claim_C1_counterexample :
    storedTextMood [] (some 11) = 11 ∧ storedVoiceMood (some 11) = 11 ∧
    ¬ (storedTextMood [] (some 11) ≤ 10) := by
  refine ⟨by decide, rfl, by decide⟩

/-- C1 (amended): when the caller supplies no mood, the stored mood does
lie in [1,10]: the text endpoint stores the sentiment score of the content
(or the fallback 5 for empty content), and the voice endpoint stores 5.
Caller-supplied mood values, however, are stored without validation. -/
theorem claim_C1_storedMood (content : List Char) :
    1 ≤ storedTextMood content none ∧ storedTextMood content none ≤ 10 ∧
    storedVoiceMood none = 5 := by
  by_cases hc : content = []
  · subst hc
    exact ⟨by decide, by decide, rfl⟩
  · have hcond : (((none : Option ℤ) = none ∨ (none : Option ℤ) = some 0) ∧
        content ≠ []) := ⟨Or.inl rfl, hc⟩
    have hb := clamp110_bounds (round (sentimentRaw content))
    have hA1 : 1 ≤ analyzeSentiment content := hb.1
    have hA2 : analyzeSentiment content ≤ 10 := hb.2
    have hne : ¬ (analyzeSentiment content = 0) := by omega
    unfold storedTextMood
    rw [if_pos hcond]
    simp only [hne, if_false]
    exact ⟨hA1, hA2, rfl⟩

/-!  Character-level facts about lower-casing and whitespace. -/

theorem char_toNat_ofNat {n : Nat} (h : n < 55296) : (Char.ofNat n).toNat = n := by
  unfold Char.ofNat
  rw [dif_pos (Or.inl h)]
  rfl

theorem beq_char_false_of_toNat_ne {c d : Char} (h : c.toNat ≠ d.toNat) :
    (c == d) = false := by
  cases hb : c == d
  · rfl
  · rw [beq_iff_eq] at hb
    subst hb
    exact absurd rfl h

theorem isWs_false_of_big {c : Char} (h : 33 ≤ c.toNat) : isWs c = false := by
  unfold isWs
  have e1 : (' ').toNat = 32 := rfl
  have e2 : (Char.ofNat 9).toNat = 9 := rfl
  have e3 : (Char.ofNat 10).toNat = 10 := rfl
  have e4 : (Char.ofNat 13).toNat = 13 := rfl
  have e5 : (Char.ofNat 11).toNat = 11 := rfl
  have e6 : (Char.ofNat 12).toNat = 12 := rfl
  rw [@beq_char_false_of_toNat_ne c ' ' (by omega),
    @beq_char_false_of_toNat_ne c (Char.ofNat 9) (by omega),
    @beq_char_false_of_toNat_ne c (Char.ofNat 10) (by omega),
    @beq_char_false_of_toNat_ne c (Char.ofNat 13) (by omega),
    @beq_char_false_of_toNat_ne c (Char.ofNat 11) (by omega),
    @beq_char_false_of_toNat_ne c (Char.ofNat 12) (by omega)]
  rfl

theorem toLowerChar_isWs (c : Char) : isWs (toLowerChar c) = isWs c := by
  unfold toLowerChar
  by_cases h : 'A' ≤ c ∧ c ≤ 'Z'
  · rw [if_pos h]
    have h1 : 65 ≤ c.toNat := by
      have := h.1
      rw [Char.le_def] at this
      exact this
    have h2 : c.toNat ≤ 90 := by
      have := h.2
      rw [Char.le_def] at this
      exact this
    have hlow : (Char.ofNat (c.toNat + 32)).toNat = c.toNat + 32 :=
      char_toNat_ofNat (by omega)
    rw [isWs_false_of_big (by omega), isWs_false_of_big (by omega)]
  · rw [if_neg h]

theorem toLowerChar_space : toLowerChar ' ' = ' ' := by decide

/-!  Scanner behaviour inside a whitespace-free region. -/

theorem tryMatch1_none_no_ws {m cs : List Char}
    (h : ∀ c ∈ cs, isWs c = false) : tryMatch1 m cs = none := by
  unfold tryMatch1
  by_cases hp : m.isPrefixOf cs
  · rw [if_pos hp]
    rcases hd : cs.drop m.length with _ | ⟨e, r0⟩
    · rfl
    · have he : e ∈ cs := List.drop_subset m.length cs (hd ▸ List.mem_cons_self e r0)
      simp [h e he]
  · rw [if_neg hp]

theorem tryMatch_none_no_ws {cs : List Char}
    (h : ∀ c ∈ cs, isWs c = false) : tryMatch cs = none := by
  unfold tryMatch
  induction markers with
  | nil => rfl
  | cons m ms ih =>
    have hstep : tryMatchAll (m :: ms) cs =
        match tryMatch1 m cs with
        | some r1 => some r1
        | none => tryMatchAll ms cs := rfl
    rw [hstep, tryMatch1_none_no_ws h]
    exact ih

theorem countNeg_no_ws :
    ∀ cs : List Char, (∀ c ∈ cs, isWs c = false) → countNeg cs = 0 := by
  intro cs
  induction cs with
  | nil => intro _; rfl
  | cons c cs ih =>
    intro h
    rw [countNeg_cons_none (tryMatch_none_no_ws h)]
    exact ih (fun d hd => h d (List.mem_cons_of_mem _ hd))

/-!  Scanner behaviour at a token boundary. -/

theorem tryMatch1_boundary_ne {m T rest : List Char}
    (hT : ∀ c ∈ T, isWs c = false)
    (hm : m ≠ [] ∧ ∀ c ∈ m, isWs c = false)
    (hne : m ≠ T) :
    tryMatch1 m (T ++ ' ' :: rest) = none := by
  unfold tryMatch1
  by_cases hp : m.isPrefixOf (T ++ ' ' :: rest)
  · rw [if_pos hp]
    have hpre : m <+: T ++ ' ' :: rest := List.isPrefixOf_iff_prefix.mp hp
    have hm_take : m = (T ++ ' ' :: rest).take m.length :=
      List.prefix_iff_eq_take.mp hpre
    rcases Nat.lt_trichotomy m.length T.length with hlt | heq | hgt
    · -- the character after the marker is inside the token: not whitespace
      have hdrop : (T ++ ' ' :: rest).drop m.length =
          T.drop m.length ++ ' ' :: rest :=
        List.drop_append_of_le_length (le_of_lt hlt)
      rcases hd : T.drop m.length with _ | ⟨e, ts⟩
      · have : T.length - m.length = 0 := by
          have := congrArg List.length hd
          simpa using this
        omega
      · have he : e ∈ T := List.drop_subset m.length T (hd ▸ List.mem_cons_self e ts)
        rw [hdrop, hd]
        simp only [List.cons_append]
        rw [hT e he]
        simp
    · -- same length forces the marker to be the token itself
      exfalso
      apply hne
      rw [heq] at hm_take
      rw [List.take_left] at hm_take
      exact hm_take
    · -- a longer marker would have to contain the separating space
      exfalso
      have hsp : ' ' ∈ m := by
        rw [hm_take, List.take_append_eq_append_take]
        apply List.mem_append_right
        rcases hk : m.length - T.length with _ | k
        · omega
        · rw [List.take_succ_cons]
          exact List.mem_cons_self _ _
      have := hm.2 ' ' hsp
      exact absurd this (by decide)
  · rw [if_neg hp]

theorem isPrefixOf_append_self (T x : List Char) : T.isPrefixOf (T ++ x) = true :=
  List.isPrefixOf_iff_prefix.mpr (List.prefix_append T x)

theorem tryMatch1_boundary_nil (T : List Char) : tryMatch1 T (T ++ [' ']) = none := by
  unfold tryMatch1
  rw [if_pos (isPrefixOf_append_self T [' '])]
  rw [List.drop_left]
  rfl

theorem tryMatch1_boundary_cons (T : List Char) (d : Char) (r3 : List Char)
    (hd : isWs d = false) :
    tryMatch1 T (T ++ ' ' :: d :: r3) =
      (if isWordChar d = true then some (r3.dropWhile isWordChar) else none) := by
  unfold tryMatch1
  rw [show T ++ ' ' :: d :: r3 = T ++ (' ' :: d :: r3) from rfl]
  rw [if_pos (isPrefixOf_append_self T (' ' :: d :: r3))]
  rw [List.drop_left]
  have h2 : (d :: r3).dropWhile isWs = d :: r3 := by
    rw [List.dropWhile_cons, hd]
    simp
  show (match (d :: r3).dropWhile isWs with
    | [] => none
    | e :: r => if isWordChar e = true then some (r.dropWhile isWordChar) else none) = _
  rw [h2]

theorem tryMatchAll_boundary :
    ∀ ms : List (List Char), (∀ m ∈ ms, m ≠ [] ∧ ∀ c ∈ m, isWs c = false) →
    ∀ T rest : List Char, (∀ c ∈ T, isWs c = false) →
      rest.dropWhile isWs = rest →
      tryMatchAll ms (T ++ ' ' :: rest) =
        (if T ∈ ms ∧ wordStart rest = true
         then some (rest.dropWhile isWordChar) else none) := by
  intro ms
  induction ms with
  | nil =>
    intro _ T rest _ _
    simp [tryMatchAll]
  | cons m ms ih =>
    intro hms T rest hT hrest
    have hstep : tryMatchAll (m :: ms) (T ++ ' ' :: rest) =
        match tryMatch1 m (T ++ ' ' :: rest) with
        | some r1 => some r1
        | none => tryMatchAll ms (T ++ ' ' :: rest) := rfl
    rw [hstep]
    have ihs := ih (fun m hm => hms m (List.mem_cons_of_mem _ hm)) T rest hT hrest
    by_cases hmT : m = T
    · subst hmT
      rcases rest with _ | ⟨d, r3⟩
      · rw [show m ++ ' ' :: ([] : List Char) = m ++ [' '] from rfl,
          tryMatch1_boundary_nil]
        rw [show m ++ [' '] = m ++ ' ' :: ([] : List Char) from rfl, ihs]
        have hws : wordStart ([] : List Char) = false := rfl
        simp [hws]
      · have hdws : isWs d = false := by
          rcases hb : isWs d
          · rfl
          · rw [List.dropWhile_cons, hb, if_pos rfl] at hrest
            have := congrArg List.length hrest
            have hle : (r3.dropWhile isWs).length ≤ r3.length :=
              (List.dropWhile_suffix isWs).length_le
            simp only [List.length_cons] at this
            omega
        rw [tryMatch1_boundary_cons m d r3 hdws]
        by_cases hd : isWordChar d = true
        · rw [if_pos hd]
          have hws : wordStart (d :: r3) = true := by
            simp [wordStart, hd]
          rw [if_pos ⟨List.mem_cons_self _ _, hws⟩]
          rw [List.dropWhile_cons, hd]
          simp
        · rw [if_neg hd, ihs]
          have hws : wordStart (d :: r3) = false := by
            simp [wordStart]
            exact Bool.not_eq_true _ ▸ (by simpa using hd)
          simp [hws]
    · rw [tryMatch1_boundary_ne hT (hms m (List.mem_cons_self _ _)) hmT]
      rw [ihs]
      have hiff : (T ∈ m :: ms) ↔ (T ∈ ms) := by
        rw [List.mem_cons]
        exact or_iff_right (fun h => hmT h.symm)
      simp only [hiff]

theorem tryMatch_boundary (T rest : List Char)
    (hT : ∀ c ∈ T, isWs c = false)
    (hrest : rest.dropWhile isWs = rest) :
    tryMatch (T ++ ' ' :: rest) =
      (if T ∈ markers ∧ wordStart rest = true
       then some (rest.dropWhile isWordChar) else none) :=
  tryMatchAll_boundary markers markers_facts T rest hT hrest

/-!  Marker-suffix bookkeeping. -/

theorem hasMarkerSuffix_nil : hasMarkerSuffix [] = false := by decide

theorem hasMarkerSuffix_self {T : List Char} (h : T ∈ markers) :
    hasMarkerSuffix T = true := by
  unfold hasMarkerSuffix
  rw [List.any_eq_true]
  exact ⟨T, h, List.isSuffixOf_iff_suffix.mpr (List.suffix_refl T)⟩

theorem hasMarkerSuffix_cons {c : Char} {t : List Char} (h : (c :: t) ∉ markers) :
    hasMarkerSuffix (c :: t) = hasMarkerSuffix t := by
  unfold hasMarkerSuffix
  rw [Bool.eq_iff_iff, List.any_eq_true, List.any_eq_true]
  constructor
  · rintro ⟨m, hm, hsuf⟩
    rw [List.isSuffixOf_iff_suffix, List.suffix_cons_iff] at hsuf
    rcases hsuf with hsuf | hsuf
    · exact absurd (hsuf ▸ hm) h
    · exact ⟨m, hm, List.isSuffixOf_iff_suffix.mpr hsuf⟩
  · rintro ⟨m, hm, hsuf⟩
    rw [List.isSuffixOf_iff_suffix] at hsuf
    exact ⟨m, hm, List.isSuffixOf_iff_suffix.mpr
      (hsuf.trans (List.suffix_cons c t))⟩

/-- The leftmost scan across one whitespace-free token followed by a space:
a single match fires exactly when the token carries a marker suffix and the
following region starts with a word character. -/
theorem countNeg_walk :
    ∀ tok rest : List Char, (∀ c ∈ tok, isWs c = false) →
      rest.dropWhile isWs = rest →
      countNeg (tok ++ ' ' :: rest) =
        (if hasMarkerSuffix tok = true ∧ wordStart rest = true
         then countNeg (rest.dropWhile isWordChar) + 1
         else countNeg rest) := by
  intro tok
  induction tok with
  | nil =>
    intro rest hws hrest
    rw [List.nil_append, countNeg_cons_none (tryMatch_ws_head (by decide))]
    rw [hasMarkerSuffix_nil]
    simp
  | cons c tok ih =>
    intro rest hws hrest
    have hbd := tryMatch_boundary (c :: tok) rest hws hrest
    by_cases hcase : (c :: tok) ∈ markers ∧ wordStart rest = true
    · rw [if_pos hcase] at hbd
      have hsome : countNeg (c :: (tok ++ ' ' :: rest)) =
          countNeg (rest.dropWhile isWordChar) + 1 :=
        countNeg_cons_some (by rw [← List.cons_append]; exact hbd)
      rw [List.cons_append, hsome,
        if_pos ⟨hasMarkerSuffix_self hcase.1, hcase.2⟩]
    · rw [if_neg hcase] at hbd
      have hnone : tryMatch (c :: (tok ++ ' ' :: rest)) = none := by
        rw [← List.cons_append]; exact hbd
      rw [List.cons_append, countNeg_cons_none hnone,
        ih rest (fun x hx => hws x (List.mem_cons_of_mem _ hx)) hrest]
      by_cases hwr : wordStart rest = true
      · have hnotin : (c :: tok) ∉ markers := fun hin => hcase ⟨hin, hwr⟩
        rw [hasMarkerSuffix_cons hnotin]
      · have hn1 : ¬(hasMarkerSuffix tok = true ∧ wordStart rest = true) :=
          fun hx => hwr hx.2
        have hn2 : ¬(hasMarkerSuffix (c :: tok) = true ∧ wordStart rest = true) :=
          fun hx => hwr hx.2
        rw [if_neg hn1, if_neg hn2]

/-!  Equation lemmas for the token-level pairing and the renderer. -/

theorem negPairs_nil : negPairs [] = 0 := by simp [negPairs]

theorem negPairs_single (t : List Char) : negPairs [t] = 0 := by simp [negPairs]

theorem negPairs_cons₂ (t u : List Char) (rest : List (List Char)) :
    negPairs (t :: u :: rest) =
      (if hasMarkerSuffix t && wordStart u then negPairs (chop u :: rest) + 1
       else negPairs (u :: rest)) := by
  rw [negPairs]

theorem negPairs_cons_false {t : List Char} {L : List (List Char)}
    (h : hasMarkerSuffix t = false) : negPairs (t :: L) = negPairs L := by
  rcases L with _ | ⟨u, rest⟩
  · rw [negPairs_single, negPairs_nil]
  · rw [negPairs_cons₂, h]
    simp

theorem render_single (t : List Char) : render [t] = t := rfl

theorem render_cons₂ (t u : List Char) (rest : List (List Char)) :
    render (t :: u :: rest) = t ++ ' ' :: render (u :: rest) := rfl

/-- Bridge between the character-level global scan of a rendered token
list and the token-level pairing `negPairs`.  The head token may be empty
or start with a non-word character (as happens after a `\w+` group is
consumed); all later tokens are nonempty.  Everything is whitespace-free. -/
theorem countNeg_render_aux :
    ∀ N : Nat, ∀ first : List Char, ∀ rest : List (List Char),
      ((first :: rest).map List.length).sum + (first :: rest).length ≤ N →
      (∀ c ∈ first, isWs c = false) →
      (∀ t ∈ rest, t ≠ [] ∧ ∀ c ∈ t, isWs c = false) →
      countNeg (render (first :: rest)) = negPairs (first :: rest) := by
  intro N
  induction N with
  | zero =>
    intro first rest hN _ _
    exfalso
    simp only [List.map_cons, List.sum_cons, List.length_cons] at hN
    omega
  | succ N ih =>
    intro first rest hN h1 h2
    rcases rest with _ | ⟨u, rest'⟩
    · rw [render_single, negPairs_single]
      exact countNeg_no_ws first h1
    · rcases h2 u (List.mem_cons_self _ _) with ⟨hune, huws⟩
      rcases u with _ | ⟨d, u'⟩
      · exact absurd rfl hune
      have hdws : isWs d = false := huws d (List.mem_cons_self _ _)
      have hchoplen : (chop (d :: u')).length ≤ (d :: u').length :=
        (List.dropWhile_suffix isWordChar).length_le
      have hchopws : ∀ c ∈ chop (d :: u'), isWs c = false :=
        fun c hc => huws c ((List.dropWhile_suffix isWordChar).mem hc)
      have hrest2 : ∀ t ∈ rest', t ≠ [] ∧ ∀ c ∈ t, isWs c = false :=
        fun t ht => h2 t (List.mem_cons_of_mem _ ht)
      simp only [List.map_cons, List.sum_cons, List.length_cons] at hN
      rcases rest' with _ | ⟨v, r⟩
      · -- exactly two tokens: first and d :: u'
        rw [render_cons₂, render_single, negPairs_cons₂]
        have hXdrop : (d :: u').dropWhile isWs = d :: u' := by
          rw [List.dropWhile_cons, hdws]
          simp
        rw [countNeg_walk first (d :: u') h1 hXdrop]
        by_cases hguard : hasMarkerSuffix first = true ∧ wordStart (d :: u') = true
        · rw [if_pos hguard, if_pos (by rw [hguard.1, hguard.2]; rfl)]
          rw [countNeg_no_ws ((d :: u').dropWhile isWordChar)
            (fun c hc => huws c ((List.dropWhile_suffix isWordChar).mem hc)),
            negPairs_single]
        · rw [if_neg hguard, if_neg (by
            rw [Bool.and_eq_true]
            exact hguard)]
          rw [countNeg_no_ws _ huws, negPairs_single]
      · -- three or more tokens
        rw [render_cons₂, negPairs_cons₂]
        have hX : render ((d :: u') :: v :: r) = (d :: u') ++ ' ' :: render (v :: r) :=
          render_cons₂ _ _ _
        have hXdrop : (render ((d :: u') :: v :: r)).dropWhile isWs =
            render ((d :: u') :: v :: r) := by
          rw [hX]
          show ((d :: (u' ++ ' ' :: render (v :: r))).dropWhile isWs) = _
          rw [List.dropWhile_cons, hdws]
          simp
        have hXword : wordStart (render ((d :: u') :: v :: r)) = wordStart (d :: u') := by
          rw [hX]
          rfl
        rw [countNeg_walk first (render ((d :: u') :: v :: r)) h1 hXdrop]
        by_cases hguard : hasMarkerSuffix first = true ∧ wordStart (d :: u') = true
        · rw [if_pos (by rw [hXword]; exact hguard),
            if_pos (by rw [hguard.1, hguard.2]; rfl)]
          have hdropX : (render ((d :: u') :: v :: r)).dropWhile isWordChar =
              render (chop (d :: u') :: v :: r) := by
            rw [hX]
            show ((d :: u') ++ (' ' :: render (v :: r))).dropWhile isWordChar = _
            rw [List.dropWhile_append]
            by_cases hch : ((d :: u').dropWhile isWordChar).isEmpty = true
            · rw [if_pos hch]
              have hchnil : chop (d :: u') = [] := by
                rcases hcc : (d :: u').dropWhile isWordChar with _ | ⟨x, xs⟩
                · rw [chop, hcc]
                · rw [hcc] at hch
                  exact absurd hch (by simp [List.isEmpty])
              rw [hchnil, render_cons₂, List.nil_append]
              rw [List.dropWhile_cons]
              have hspw : isWordChar ' ' = false := by decide
              rw [hspw]
              simp
            · rw [if_neg hch, render_cons₂]
              rfl
          rw [hdropX]
          have hmeas : ((chop (d :: u') :: v :: r).map List.length).sum +
              (chop (d :: u') :: v :: r).length ≤ N := by
            simp only [List.map_cons, List.sum_cons, List.length_cons] at hN ⊢
            simp only [List.length_cons] at hchoplen
            omega
          rw [ih (chop (d :: u')) (v :: r) hmeas hchopws hrest2]
        · rw [if_neg (by rw [hXword]; exact hguard),
            if_neg (by
              rw [Bool.and_eq_true]
              exact hguard)]
          have hmeas : (((d :: u') :: v :: r).map List.length).sum +
              ((d :: u') :: v :: r).length ≤ N := by
            simp only [List.map_cons, List.sum_cons, List.length_cons] at hN ⊢
            omega
          exact ih (d :: u') (v :: r) hmeas huws hrest2

/-- Whitespace-free nonempty token lists rendered with single spaces scan
to exactly their token-level pairing count. -/
theorem countNeg_render (toks : List (List Char))
    (h : ∀ t ∈ toks, t ≠ [] ∧ ∀ c ∈ t, isWs c = false) :
    countNeg (render toks) = negPairs toks := by
  rcases toks with _ | ⟨first, rest⟩
  · rw [negPairs_nil]
    rfl
  · exact countNeg_render_aux
      (((first :: rest).map List.length).sum + (first :: rest).length)
      first rest le_rfl (h first (List.mem_cons_self _ _)).2
      (fun t ht => h t (List.mem_cons_of_mem _ ht))

theorem hasMarkerSuffix_of_suffix {t1 t2 : List Char} (hs : t1 <:+ t2)
    (h : hasMarkerSuffix t1 = true) : hasMarkerSuffix t2 = true := by
  unfold hasMarkerSuffix at h ⊢
  rw [List.any_eq_true] at h ⊢
  rcases h with ⟨m, hm, hsuf⟩
  exact ⟨m, hm, List.isSuffixOf_iff_suffix.mpr
    ((List.isSuffixOf_iff_suffix.mp hsuf).trans hs)⟩

/-- Consuming the leading word run of the head token changes the pairing
count by at most one, and never upward. -/
theorem negPairs_chop_aux :
    ∀ N : Nat, ∀ u : List Char, ∀ rest : List (List Char),
      ((u :: rest).map List.length).sum + (u :: rest).length ≤ N →
      negPairs (chop u :: rest) ≤ negPairs (u :: rest) ∧
      negPairs (u :: rest) ≤ negPairs (chop u :: rest) + 1 := by
  intro N
  induction N with
  | zero =>
    intro u rest hN
    exfalso
    simp only [List.map_cons, List.sum_cons, List.length_cons] at hN
    omega
  | succ N ih =>
    intro u rest hN
    rcases rest with _ | ⟨v, r⟩
    · rw [negPairs_single, negPairs_single]
      exact ⟨le_rfl, by omega⟩
    · rw [negPairs_cons₂ u v r, negPairs_cons₂ (chop u) v r]
      simp only [List.map_cons, List.sum_cons, List.length_cons] at hN
      by_cases hwv : wordStart v = true
      · by_cases hmu : hasMarkerSuffix u = true
        · by_cases hmc : hasMarkerSuffix (chop u) = true
          · rw [if_pos (by rw [hmc, hwv]; rfl), if_pos (by rw [hmu, hwv]; rfl)]
            exact ⟨le_rfl, Nat.le_succ _⟩
          · rw [if_neg (by rw [Bool.and_eq_true]; exact fun hx => hmc hx.1),
              if_pos (by rw [hmu, hwv]; rfl)]
            have hvr := ih v r (by
              simp only [List.map_cons, List.sum_cons, List.length_cons]
              omega)
            exact ⟨by omega, by omega⟩
        · have hmc : ¬ hasMarkerSuffix (chop u) = true :=
            fun hx => hmu (hasMarkerSuffix_of_suffix (List.dropWhile_suffix isWordChar) hx)
          rw [if_neg (by rw [Bool.and_eq_true]; exact fun hx => hmc hx.1),
            if_neg (by rw [Bool.and_eq_true]; exact fun hx => hmu hx.1)]
          exact ⟨le_rfl, Nat.le_succ _⟩
      · rw [if_neg (by rw [Bool.and_eq_true]; exact fun hx => hwv hx.2),
          if_neg (by rw [Bool.and_eq_true]; exact fun hx => hwv hx.2)]
        exact ⟨le_rfl, Nat.le_succ _⟩

theorem negPairs_chop (u : List Char) (rest : List (List Char)) :
    negPairs (chop u :: rest) ≤ negPairs (u :: rest) ∧
    negPairs (u :: rest) ≤ negPairs (chop u :: rest) + 1 :=
  negPairs_chop_aux (((u :: rest).map List.length).sum + (u :: rest).length)
    u rest le_rfl

/-- Inserting one neutral token — no marker suffix, starting with a word
character, all word characters — changes the pairing count by at most one
in either direction. -/
theorem negPairs_insert_aux :
    ∀ N : Nat, ∀ L1 L2 : List (List Char), ∀ w : List Char,
      hasMarkerSuffix w = false → wordStart w = true → chop w = [] →
      (L1.map List.length).sum + L1.length ≤ N →
      negPairs (L1 ++ w :: L2) ≤ negPairs (L1 ++ L2) + 1 ∧
      negPairs (L1 ++ L2) ≤ negPairs (L1 ++ w :: L2) + 1 := by
  intro N
  induction N with
  | zero =>
    intro L1 L2 w hw1 _ _ hN
    have hL1 : L1 = [] := by
      rcases L1 with _ | ⟨t, L1'⟩
      · rfl
      · exfalso
        simp only [List.map_cons, List.sum_cons, List.length_cons] at hN
        omega
    subst hL1
    rw [List.nil_append, List.nil_append, negPairs_cons_false hw1]
    exact ⟨Nat.le_succ _, Nat.le_succ _⟩
  | succ N ih =>
    intro L1 L2 w hw1 hw2 hw3 hN
    rcases L1 with _ | ⟨t, L1'⟩
    · rw [List.nil_append, List.nil_append, negPairs_cons_false hw1]
      exact ⟨Nat.le_succ _, Nat.le_succ _⟩
    · rcases L1' with _ | ⟨u, L1''⟩
      · -- the inserted token sits directly after the last original token
        simp only [List.cons_append, List.nil_append]
        by_cases hmt : hasMarkerSuffix t = true
        · rw [negPairs_cons₂ t w L2, if_pos (by rw [hmt, hw2]; rfl), hw3,
            negPairs_cons_false hasMarkerSuffix_nil]
          rcases L2 with _ | ⟨v, r⟩
          · rw [negPairs_nil, negPairs_single]
            exact ⟨by omega, by omega⟩
          · rw [negPairs_cons₂ t v r]
            by_cases hwv : wordStart v = true
            · rw [if_pos (by rw [hmt, hwv]; rfl)]
              have hc := negPairs_chop v r
              exact ⟨by omega, by omega⟩
            · rw [if_neg (by rw [Bool.and_eq_true]; exact fun hx => hwv hx.2)]
              exact ⟨by omega, by omega⟩
        · have hmt' : hasMarkerSuffix t = false := by
            rcases hb : hasMarkerSuffix t
            · rfl
            · exact absurd hb hmt
          rw [negPairs_cons_false hmt', negPairs_cons_false hmt',
            negPairs_cons_false hw1]
          exact ⟨Nat.le_succ _, Nat.le_succ _⟩
      · -- at least two tokens before the insertion point
        simp only [List.cons_append]
        rw [negPairs_cons₂ t u (L1'' ++ w :: L2), negPairs_cons₂ t u (L1'' ++ L2)]
        simp only [List.map_cons, List.sum_cons, List.length_cons] at hN
        by_cases hg : (hasMarkerSuffix t && wordStart u) = true
        · rw [if_pos hg, if_pos hg]
          have hrec := ih (chop u :: L1'') L2 w hw1 hw2 hw3 (by
            simp only [List.map_cons, List.sum_cons, List.length_cons]
            have hchoplen : (chop u).length ≤ u.length :=
              (List.dropWhile_suffix isWordChar).length_le
            omega)
          simp only [List.cons_append] at hrec
          exact ⟨by omega, by omega⟩
        · rw [if_neg hg, if_neg hg]
          have hrec := ih (u :: L1'') L2 w hw1 hw2 hw3 (by
            simp only [List.map_cons, List.sum_cons, List.length_cons]
            omega)
          simp only [List.cons_append] at hrec
          exact hrec

theorem negPairs_insert (L1 L2 : List (List Char)) (w : List Char)
    (hw1 : hasMarkerSuffix w = false) (hw2 : wordStart w = true)
    (hw3 : chop w = []) :
    negPairs (L1 ++ w :: L2) ≤ negPairs (L1 ++ L2) + 1 ∧
    negPairs (L1 ++ L2) ≤ negPairs (L1 ++ w :: L2) + 1 :=
  negPairs_insert_aux ((L1.map List.length).sum + L1.length) L1 L2 w
    hw1 hw2 hw3 le_rfl

/-!  Splitting a rendered token list recovers the tokens. -/

theorem splitWsGo_token :
    ∀ t cs acc : List Char, (∀ c ∈ t, isWs c = false) →
      splitWsGo (t ++ cs) acc = splitWsGo cs (t.reverse ++ acc) := by
  intro t
  induction t with
  | nil =>
    intro cs acc _
    rw [List.nil_append, List.reverse_nil, List.nil_append]
  | cons c t ih =>
    intro cs acc h
    have hc : isWs c = false := h c (List.mem_cons_self _ _)
    rw [List.cons_append, splitWsGo_cons,
      if_neg (by rw [hc]; exact Bool.false_ne_true),
      ih cs (c :: acc) (fun d hd => h d (List.mem_cons_of_mem _ hd)),
      List.reverse_cons, List.append_assoc]
    rfl

theorem render_dropWhile_ws (u : List Char) (rest : List (List Char))
    (hu : u ≠ []) (huws : ∀ c ∈ u, isWs c = false) :
    (render (u :: rest)).dropWhile isWs = render (u :: rest) := by
  rcases u with _ | ⟨d, u'⟩
  · exact absurd rfl hu
  have hd : isWs d = false := huws d (List.mem_cons_self _ _)
  rcases rest with _ | ⟨v, r⟩
  · rw [render_single, List.dropWhile_cons, hd]
    simp
  · rw [render_cons₂]
    show ((d :: (u' ++ ' ' :: render (v :: r))).dropWhile isWs) = _
    rw [List.dropWhile_cons, hd]
    simp

theorem splitWs_render :
    ∀ toks : List (List Char),
      (∀ t ∈ toks, t ≠ [] ∧ ∀ c ∈ t, isWs c = false) →
      toks ≠ [] → splitWs (render toks) = toks := by
  intro toks
  induction toks with
  | nil => intro _ h; exact absurd rfl h
  | cons t rest ih =>
    intro h _
    rcases h t (List.mem_cons_self _ _) with ⟨htne, htws⟩
    rcases rest with _ | ⟨u, rest'⟩
    · rw [render_single, splitWs_eq_go]
      have h2 := splitWsGo_token t [] [] htws
      rw [List.append_nil, List.append_nil] at h2
      rw [h2, splitWsGo_nil, List.reverse_reverse]
    · rcases h u (List.mem_cons_of_mem _ (List.mem_cons_self _ _)) with ⟨hune, huws⟩
      have hsp : isWs ' ' = true := by decide
      rw [render_cons₂, splitWs_eq_go,
        splitWsGo_token t (' ' :: render (u :: rest')) [] htws,
        splitWsGo_cons, if_pos hsp,
        render_dropWhile_ws u rest' hune huws,
        List.append_nil, List.reverse_reverse, ← splitWs_eq_go,
        ih (fun s hs => h s (List.mem_cons_of_mem _ hs)) (List.cons_ne_nil _ _)]

/-- Splitting a rendered token list and counting tokens satisfying a
predicate that rejects the empty token counts exactly the tokens. -/
theorem countP_splitWs_render (p : List Char → Bool) (hp : p [] = false)
    (toks : List (List Char))
    (h : ∀ t ∈ toks, t ≠ [] ∧ ∀ c ∈ t, isWs c = false) :
    (splitWs (render toks)).countP p = toks.countP p := by
  rcases toks with _ | ⟨t, rest⟩
  · show ([([] : List Char)]).countP p = 0
    rw [List.countP_cons, hp]
    rfl
  · rw [splitWs_render (t :: rest) h (List.cons_ne_nil _ _)]

/-!  Character counts and lower-casing distribute over rendering. -/

theorem count_render (ch : Char) (hch : (' ' == ch) = false) :
    ∀ toks : List (List Char),
      (render toks).count ch = (toks.map (fun t => t.count ch)).sum := by
  intro toks
  induction toks with
  | nil => rfl
  | cons t rest ih =>
    rcases rest with _ | ⟨u, rest'⟩
    · rw [render_single]
      simp
    · rw [render_cons₂, List.count_append, List.count_cons, hch, ih]
      simp

theorem map_toLower_render :
    ∀ toks : List (List Char),
      (render toks).map toLowerChar = render (toks.map (List.map toLowerChar)) := by
  intro toks
  induction toks with
  | nil => rfl
  | cons t rest ih =>
    rcases rest with _ | ⟨u, rest'⟩
    · rw [render_single]
      rfl
    · rw [render_cons₂, List.map_append, List.map_cons, toLowerChar_space, ih]
      rfl

theorem lowerToks_ok (toks : List (List Char))
    (h : ∀ t ∈ toks, t ≠ [] ∧ ∀ c ∈ t, isWs c = false) :
    ∀ t ∈ toks.map (List.map toLowerChar), t ≠ [] ∧ ∀ c ∈ t, isWs c = false := by
  intro t ht
  rcases List.mem_map.mp ht with ⟨s, hs, rfl⟩
  rcases h s hs with ⟨hne, hws⟩
  refine ⟨by simpa using hne, ?_⟩
  intro c hc
  rcases List.mem_map.mp hc with ⟨d, hd, rfl⟩
  rw [toLowerChar_isWs]
  exact hws d hd

/-- Closed form of the raw frontend sentiment score on a rendered
whitespace-free token list: counts over the lower-cased tokens plus the
token-level negation pairing. -/
theorem sentimentRaw_render_eq (toks : List (List Char))
    (htoks : ∀ t ∈ toks, t ≠ [] ∧ ∀ c ∈ t, isWs c = false) :
    sentimentRaw (render toks) =
      5 + (((toks.map (List.map toLowerChar)).countP
              (fun t => decide (t ∈ positiveWords)) : ℚ)) * (1/2)
        - (((toks.map (List.map toLowerChar)).countP
              (fun t => decide (t ∈ negativeWords)) : ℚ)) * (1/2)
        - ((negPairs (toks.map (List.map toLowerChar)) : ℚ)) * (3/10)
        + ((((toks.map (fun t => t.count '!')).sum : ℕ) : ℚ)) * (1/5)
        - (if 2 < (toks.map (fun t => t.count '?')).sum then (3/10 : ℚ) else 0) := by
  simp only [sentimentRaw]
  rw [map_toLower_render toks,
    countP_splitWs_render _ (by decide) _ (lowerToks_ok toks htoks),
    countP_splitWs_render _ (by decide) _ (lowerToks_ok toks htoks),
    countNeg_render _ (lowerToks_ok toks htoks),
    count_render '!' (by decide) toks, count_render '?' (by decide) toks]

/-!  Lexicon facts and the final monotonicity argument. -/

theorem posWords_props :
    ∀ w ∈ positiveWords, hasMarkerSuffix w = false ∧ wordStart w = true ∧
      chop w = [] ∧ w.count '!' = 0 ∧ w.count '?' = 0 ∧ w ≠ [] ∧
      (∀ c ∈ w, isWs c = false) ∧ w.map toLowerChar = w ∧ w ∉ negativeWords := by
  decide

theorem negWords_props :
    ∀ w ∈ negativeWords, hasMarkerSuffix w = false ∧ wordStart w = true ∧
      chop w = [] ∧ w.count '!' = 0 ∧ w.count '?' = 0 ∧ w ≠ [] ∧
      (∀ c ∈ w, isWs c = false) ∧ w.map toLowerChar = w ∧ w ∉ positiveWords := by
  decide

theorem clamp_round_mono {a b : ℚ} (h : a ≤ b) :
    max 1 (min 10 (round a)) ≤ max (1 : ℤ) (min 10 (round b)) := by
  have hr : round a ≤ round b := by
    rw [round_eq, round_eq]
    exact Int.floor_le_floor (by linarith)
  exact max_le_max le_rfl (min_le_min le_rfl hr)

theorem toks_ok_append {pre post : List (List Char)}
    (hpre : ∀ t ∈ pre, t ≠ [] ∧ ∀ c ∈ t, isWs c = false)
    (hpost : ∀ t ∈ post, t ≠ [] ∧ ∀ c ∈ t, isWs c = false) :
    ∀ t ∈ pre ++ post, t ≠ [] ∧ ∀ c ∈ t, isWs c = false := by
  intro t ht
  rcases List.mem_append.mp ht with h | h
  · exact hpre t h
  · exact hpost t h

theorem toks_ok_insert {pre post : List (List Char)} {w : List Char}
    (hpre : ∀ t ∈ pre, t ≠ [] ∧ ∀ c ∈ t, isWs c = false)
    (hpost : ∀ t ∈ post, t ≠ [] ∧ ∀ c ∈ t, isWs c = false)
    (hwne : w ≠ []) (hwws : ∀ c ∈ w, isWs c = false) :
    ∀ t ∈ pre ++ w :: post, t ≠ [] ∧ ∀ c ∈ t, isWs c = false := by
  intro t ht
  rcases List.mem_append.mp ht with h | h
  · exact hpre t h
  · rcases List.mem_cons.mp h with rfl | h
    · exact ⟨hwne, hwws⟩
    · exact hpost t h

theorem sentimentRaw_insert_pos (pre post : List (List Char)) (w : List Char)
    (hpre : ∀ t ∈ pre, t ≠ [] ∧ ∀ c ∈ t, isWs c = false)
    (hpost : ∀ t ∈ post, t ≠ [] ∧ ∀ c ∈ t, isWs c = false)
    (hw : w ∈ positiveWords) :
    sentimentRaw (render (pre ++ post)) ≤ sentimentRaw (render (pre ++ w :: post)) := by
  obtain ⟨hfx1, hfx2, hfx3, hfx4, hfx5, hfx6, hfx7, hfx8, hfx9⟩ := posWords_props w hw
  have hT1 := toks_ok_append hpre hpost
  have hT2 := toks_ok_insert hpre hpost hfx6 hfx7
  have e1 : (pre ++ w :: post).map (List.map toLowerChar) =
      pre.map (List.map toLowerChar) ++ w :: post.map (List.map toLowerChar) := by
    rw [List.map_append, List.map_cons, hfx8]
  have e2 : (pre ++ post).map (List.map toLowerChar) =
      pre.map (List.map toLowerChar) ++ post.map (List.map toLowerChar) :=
    List.map_append _ _ _
  have e3 : (pre.map (List.map toLowerChar) ++ w :: post.map (List.map toLowerChar)).countP
        (fun t => decide (t ∈ positiveWords)) =
      (pre.map (List.map toLowerChar) ++ post.map (List.map toLowerChar)).countP
        (fun t => decide (t ∈ positiveWords)) + 1 := by
    rw [List.countP_append, List.countP_cons, List.countP_append,
      decide_eq_true hw]
    simp
    omega
  have e4 : (pre.map (List.map toLowerChar) ++ w :: post.map (List.map toLowerChar)).countP
        (fun t => decide (t ∈ negativeWords)) =
      (pre.map (List.map toLowerChar) ++ post.map (List.map toLowerChar)).countP
        (fun t => decide (t ∈ negativeWords)) := by
    rw [List.countP_append, List.countP_cons, List.countP_append,
      decide_eq_false hfx9]
    simp
  have e5 : ((pre ++ w :: post).map (fun t => t.count '!')).sum =
      ((pre ++ post).map (fun t => t.count '!')).sum := by
    rw [List.map_append, List.map_cons, List.sum_append, List.sum_cons, hfx4,
      List.map_append, List.sum_append]
    omega
  have e6 : ((pre ++ w :: post).map (fun t => t.count '?')).sum =
      ((pre ++ post).map (fun t => t.count '?')).sum := by
    rw [List.map_append, List.map_cons, List.sum_append, List.sum_cons, hfx5,
      List.map_append, List.sum_append]
    omega
  have hins := negPairs_insert (pre.map (List.map toLowerChar))
    (post.map (List.map toLowerChar)) w hfx1 hfx2 hfx3
  rw [sentimentRaw_render_eq _ hT1, sentimentRaw_render_eq _ hT2,
    e1, e2, e3, e4, e5, e6]
  have hb1 : (negPairs (pre.map (List.map toLowerChar) ++
        w :: post.map (List.map toLowerChar)) : ℚ) ≤
      (negPairs (pre.map (List.map toLowerChar) ++
        post.map (List.map toLowerChar)) : ℚ) + 1 := by
    exact_mod_cast hins.1
  push_cast
  linarith

theorem sentimentRaw_insert_neg (pre post : List (List Char)) (w : List Char)
    (hpre : ∀ t ∈ pre, t ≠ [] ∧ ∀ c ∈ t, isWs c = false)
    (hpost : ∀ t ∈ post, t ≠ [] ∧ ∀ c ∈ t, isWs c = false)
    (hw : w ∈ negativeWords) :
    sentimentRaw (render (pre ++ w :: post)) ≤ sentimentRaw (render (pre ++ post)) := by
  obtain ⟨hfx1, hfx2, hfx3, hfx4, hfx5, hfx6, hfx7, hfx8, hfx9⟩ := negWords_props w hw
  have hT1 := toks_ok_append hpre hpost
  have hT2 := toks_ok_insert hpre hpost hfx6 hfx7
  have e1 : (pre ++ w :: post).map (List.map toLowerChar) =
      pre.map (List.map toLowerChar) ++ w :: post.map (List.map toLowerChar) := by
    rw [List.map_append, List.map_cons, hfx8]
  have e2 : (pre ++ post).map (List.map toLowerChar) =
      pre.map (List.map toLowerChar) ++ post.map (List.map toLowerChar) :=
    List.map_append _ _ _
  have e3 : (pre.map (List.map toLowerChar) ++ w :: post.map (List.map toLowerChar)).countP
        (fun t => decide (t ∈ negativeWords)) =
      (pre.map (List.map toLowerChar) ++ post.map (List.map toLowerChar)).countP
        (fun t => decide (t ∈ negativeWords)) + 1 := by
    rw [List.countP_append, List.countP_cons, List.countP_append,
      decide_eq_true hw]
    simp
    omega
  have e4 : (pre.map (List.map toLowerChar) ++ w :: post.map (List.map toLowerChar)).countP
        (fun t => decide (t ∈ positiveWords)) =
      (pre.map (List.map toLowerChar) ++ post.map (List.map toLowerChar)).countP
        (fun t => decide (t ∈ positiveWords)) := by
    rw [List.countP_append, List.countP_cons, List.countP_append,
      decide_eq_false hfx9]
    simp
  have e5 : ((pre ++ w :: post).map (fun t => t.count '!')).sum =
      ((pre ++ post).map (fun t => t.count '!')).sum := by
    rw [List.map_append, List.map_cons, List.sum_append, List.sum_cons, hfx4,
      List.map_append, List.sum_append]
    omega
  have e6 : ((pre ++ w :: post).map (fun t => t.count '?')).sum =
      ((pre ++ post).map (fun t => t.count '?')).sum := by
    rw [List.map_append, List.map_cons, List.sum_append, List.sum_cons, hfx5,
      List.map_append, List.sum_append]
    omega
  have hins := negPairs_insert (pre.map (List.map toLowerChar))
    (post.map (List.map toLowerChar)) w hfx1 hfx2 hfx3
  rw [sentimentRaw_render_eq _ hT1, sentimentRaw_render_eq _ hT2,
    e1, e2, e3, e4, e5, e6]
  have hb2 : (negPairs (pre.map (List.map toLowerChar) ++
        post.map (List.map toLowerChar)) : ℚ) ≤
      (negPairs (pre.map (List.map toLowerChar) ++
        w :: post.map (List.map toLowerChar)) : ℚ) + 1 := by
    exact_mod_cast hins.2
  push_cast
  linarith

/-- C6: inserting one additional occurrence of a positive-lexicon word as
a token of the text (everything else fixed) never decreases the frontend
sentiment score, and inserting a negative-lexicon word never increases it.
Texts are given as whitespace-free nonempty tokens rendered with single
spaces. -/
theorem claim_C6_lexicon_monotonic (pre post : List (List Char)) (w : List Char)
    (hpre : ∀ t ∈ pre, t ≠ [] ∧ ∀ c ∈ t, isWs c = false)
    (hpost : ∀ t ∈ post, t ≠ [] ∧ ∀ c ∈ t, isWs c = false) :
    (w ∈ positiveWords →
      analyzeSentiment (render (pre ++ post)) ≤
        analyzeSentiment (render (pre ++ w :: post))) ∧
    (w ∈ negativeWords →
      analyzeSentiment (render (pre ++ w :: post)) ≤
        analyzeSentiment (render (pre ++ post))) := by
  constructor
  · intro hw
    exact clamp_round_mono (sentimentRaw_insert_pos pre post w hpre hpost hw)
  · intro hw
    exact clamp_round_mono (sentimentRaw_insert_neg pre post w hpre hpost hw)

/-- C6 witness: inserting `happy` after the single token `good` does not
decrease the score. -/
theorem claim_C6_lexicon_monotonic_witness :
    analyzeSentiment (render ([['g','o','o','d']] ++ [])) ≤
      analyzeSentiment (render ([['g','o','o','d']] ++
        ['h','a','p','p','y'] :: [])) :=
  (claim_C6_lexicon_monotonic [['g','o','o','d']] [] ['h','a','p','p','y']
    (by decide) (by decide)).1 (by decide)
